import Mathlib

/-!
Verification of the GrayNorm core (graynorm.py) against its specification.

The numeric pipeline of `Data` (compute_nf, compute_inv_nf,
compute_inv_nf_vs_control, compute_condition_stats, compute_overall_stats,
compute_all) and the free function compute_stats are embedded over the real
numbers (exact arithmetic for Python floats).  The ingestion method
`Data.add` is embedded separately, parametrically in the coerced
condition-value type.  Python divisions that can raise ZeroDivisionError are
additionally modelled by an `Except`-valued variant where an error claim
needs them.
-/

namespace GrayNorm

/-- A cell of an ingested sample row.  `Data.add` (graynorm.py lines 45-47)
coerces every cell in a data/gene column to float (modelled as a real);
the sample-id and condition columns keep their raw text. -/
inductive Val where
  | num (x : ℝ)
  | str (s : String)

/-- Numeric content of a cell.  In the source a text cell reaching the
product in `compute_nf` would raise a TypeError; the gene columns selected
by the claims always hold `num` cells, so the value on `str` is never
relevant there. -/
def Val.toR : Val → ℝ
  | num x => x
  | str _ => 0

/-- Embedding of `itertools.compress(row, col_sel)` (graynorm.py line 137):
keep the elements of the first list at positions where the second list
holds `true`; stops at the shorter list. -/
def compress {α : Type} : List α → List Bool → List α
  | _, [] => []
  | [], _ => []
  | a :: as, b :: bs => if b then a :: compress as bs else compress as bs

/-- Snapshot of a fully ingested `Data` object, restricted to the fields the
numeric pipeline reads: `_headers`, `_data`, `_control_idx`, and the
condition grouping.  The Python dict `_cond_groups` (keyed by the text form
of the condition tuple, with distinct keys) together with the insertion
ordered key list `_cond_group_idx` is represented as one association list
in first-seen order: `condition_values` is `groups.map Prod.fst` and
`condition_group cv` is the member list paired with `cv`. -/
structure Data where
  headers : List String
  data : List (List Val)
  control_idx : List Nat
  groups : List (List Val × List Nat)

/-- Embedding of `Data.compute_nf` (graynorm.py lines 132-140): for every
row, the product of the cells in the columns whose header is in `genes`
(left fold starting from 1.0, as `reduce` does), raised to the real power
`1/len(genes)`. -/
noncomputable def Data.compute_nf (d : Data) (genes : List String) : List ℝ :=
  let col_sel := d.headers.map (fun header => decide (header ∈ genes))
  d.data.map (fun row =>
    Real.rpow ((compress row col_sel).foldl (fun x y => x * y.toR) 1)
      (1 / (genes.length : ℝ)))

/-- Embedding of `Data.compute_inv_nf` (graynorm.py lines 142-143). -/
noncomputable def Data.compute_inv_nf (d : Data) (genes : List String) : List ℝ :=
  (d.compute_nf genes).map (fun x => 1 / x)

/-- Embedding of `Data.compute_inv_nf_vs_control` (graynorm.py lines
145-149).  `inv_nfs[idx]` is modelled by `getD _ 0`; the control indices
are in bounds for every state built by `Data.add`, so the default is never
read under the claims' bound hypotheses. -/
noncomputable def Data.compute_inv_nf_vs_control (d : Data) (genes : List String) : List ℝ :=
  let inv_nfs := d.compute_inv_nf genes
  let avg_control :=
    (d.control_idx.map (fun idx => inv_nfs.getD idx 0)).sum / (d.control_idx.length : ℝ)
  inv_nfs.map (fun x => x / avg_control)

/-- Embedding of the free function `compute_stats` (graynorm.py lines
230-235): mean, sample standard deviation from the raw sums, and standard
error, as the tuple `(s/n, stddev, stddev/sqrt n)`. -/
noncomputable def compute_stats (numbers : List ℝ) : ℝ × ℝ × ℝ :=
  let n : ℝ := numbers.length
  let s : ℝ := numbers.sum
  let s2 : ℝ := (numbers.map (fun x => x ^ 2)).sum
  let stddev := Real.sqrt ((s2 - s ^ 2 / n) / (n - 1))
  (s / n, stddev, stddev / Real.sqrt n)

/-- One record of the list built by `Data.compute_condition_stats`
(graynorm.py lines 157-163). -/
structure CondStat where
  cond : List Val
  avg : ℝ
  stddev : ℝ
  stderr : ℝ
  cv_intra : ℝ

/-- Embedding of `Data.compute_condition_stats` (graynorm.py lines
151-164).  The source iterates over `self.condition_values` and looks each
tuple up with `self.condition_group`; since the dict keys are exactly the
recorded tuples (distinct by construction), that loop visits the stored
groups in first-seen order, which is how `groups` is stored here. -/
noncomputable def Data.compute_condition_stats (d : Data) (genes : List String) :
    List CondStat :=
  let inv_nfs_vs_ctrl := d.compute_inv_nf_vs_control genes
  d.groups.map (fun g =>
    let st := compute_stats (g.2.map (fun i => inv_nfs_vs_ctrl.getD i 0))
    { cond := g.1, avg := st.1, stddev := st.2.1, stderr := st.2.2,
      cv_intra := st.2.1 / st.1 })

/-- The record built by `Data.compute_overall_stats` (graynorm.py lines
171-176). -/
structure OverallStat where
  avg : ℝ
  stddev : ℝ
  cumm : ℝ
  cv_inter : ℝ

/-- Embedding of `Data.compute_overall_stats` (graynorm.py lines 166-176). -/
noncomputable def Data.compute_overall_stats (d : Data) (genes : List String) :
    OverallStat :=
  let stats := d.compute_condition_stats genes
  let avgs := stats.map (fun stat => stat.avg)
  let st := compute_stats avgs
  { avg := st.1, stddev := st.2.1,
    cumm := (avgs.map (fun x => |1 - x|)).sum,
    cv_inter := st.2.1 / st.1 }

/-- Embedding of `itertools.combinations(l, n)`: all length-`n`
subsequences of `l`, in the order itertools produces them (lexicographic in
the positions, so elements keep the input order). -/
def combinations {α : Type} : Nat → List α → List (List α)
  | 0, _ => [[]]
  | _ + 1, [] => []
  | n + 1, a :: as => (combinations n as).map (fun c => a :: c) ++ combinations (n + 1) as

/-- One record of the list built by `Data.compute_all` (graynorm.py lines
184-188). -/
structure GeneComb where
  genes : List String
  conds : List CondStat
  overall : OverallStat

/-- The list `gene_combinations` as built by the nested loops of
`Data.compute_all` (graynorm.py lines 179-188) before sorting: subset sizes
`1 .. len(cand_genes)` in increasing order, and within each size the
itertools.combinations order. -/
noncomputable def Data.all_combinations (d : Data) (cand_genes : List String) :
    List GeneComb :=
  (List.range cand_genes.length).flatMap (fun m =>
    (combinations (m + 1) cand_genes).map (fun genes =>
      { genes := genes, conds := d.compute_condition_stats genes,
        overall := d.compute_overall_stats genes }))

/-- The boolean comparison corresponding to the sort key
`x['overall']['cv_inter']` of graynorm.py line 189. -/
noncomputable def cvInterLE (a b : GeneComb) : Bool :=
  decide (a.overall.cv_inter ≤ b.overall.cv_inter)

/-- Embedding of `Data.compute_all` (graynorm.py lines 178-190): build the
records for every non-empty combination, then sort them by the overall
inter-group CV with a stable ascending sort (Python `list.sort`). -/
noncomputable def Data.compute_all (d : Data) (cand_genes : List String) :
    List GeneComb :=
  (d.all_combinations cand_genes).mergeSort cvInterLE

/-! ### Python division-by-zero layer

Python raises `ZeroDivisionError` on division by zero instead of producing
infinity or NaN.  The two functions whose error behaviour the spec
discusses are re-embedded with this effect made explicit. -/

/-- A Python runtime exception relevant to the embedded code paths. -/
inductive PyErr where
  | zeroDivision
deriving DecidableEq

/-- Python float division: raises `ZeroDivisionError` when the divisor is
zero, otherwise returns the quotient. -/
noncomputable def pydiv (x y : ℝ) : Except PyErr ℝ :=
  if y = 0 then Except.error PyErr.zeroDivision else Except.ok (x / y)

/-- Embedding of `compute_stats` (graynorm.py lines 230-235) with Python's
division semantics explicit.  The divisions occur, in evaluation order, in
`s**2/n`, in `(...)/(n - 1.0)` (line 234), then in `s/n` and
`stddev/sqrt(n)` (line 235). -/
noncomputable def compute_statsE (numbers : List ℝ) : Except PyErr (ℝ × ℝ × ℝ) := do
  let n : ℝ := numbers.length
  let s : ℝ := numbers.sum
  let s2 : ℝ := (numbers.map (fun x => x ^ 2)).sum
  let q ← pydiv (s ^ 2) n
  let v ← pydiv (s2 - q) (n - 1)
  let stddev := Real.sqrt v
  let mean ← pydiv s n
  let se ← pydiv stddev (Real.sqrt n)
  return (mean, stddev, se)

/-- Embedding of `Data.compute_inv_nf_vs_control` (graynorm.py lines
145-149) with Python's division semantics explicit: the reciprocals of
line 143, then `avg_control /= len(self.control_rows)` (line 148), then
the rescaling divisions of line 149. -/
noncomputable def Data.compute_inv_nf_vs_controlE (d : Data) (genes : List String) :
    Except PyErr (List ℝ) := do
  let inv_nfs ← (d.compute_nf genes).mapM (fun x => pydiv 1 x)
  let avg_control ← pydiv (d.control_idx.map (fun idx => inv_nfs.getD idx 0)).sum
      (d.control_idx.length : ℝ)
  inv_nfs.mapM (fun x => pydiv x avg_control)

/-! ### Ingestion (`Data.add`)

`Data.add` (graynorm.py lines 43-61) is embedded parametrically in the
type `β` of coerced condition values and in the coercion itself
(`float(data[x])` when parseable, the raw text otherwise, lines 49-53);
claim C8 holds for every coercion.  The float coercion of the data cells
(lines 45-47) only rewrites stored cell values and plays no part in
grouping, so rows are stored unmodified here.  The dict `_cond_groups`
(keyed by `str(cond_values)`, a faithful text form of the tuple) and the
ordered key list `_cond_group_idx` are represented as one insertion-ordered
association list keyed by the tuple itself. -/

/-- The coerced condition-value tuple of a row (graynorm.py lines 48-53):
the row's cells at the condition column indices, each coerced. -/
def condTuple {β : Type} (coerce : String → β) (cond_idx : List Nat)
    (row : List String) : List β :=
  cond_idx.map (fun x => coerce (row.getD x ""))

/-- The ingestion state: `_data`, `_control_idx`, and the condition
grouping (`_cond_groups` with `_cond_group_idx`) as an insertion-ordered
association list. -/
structure IngestState (β : Type) where
  data : List (List String)
  control_idx : List Nat
  groups : List (List β × List Nat)

/-- The state set up by `Data.__init__` (graynorm.py lines 32-41). -/
def emptyIngest {β : Type} : IngestState β := ⟨[], [], []⟩

/-- Embedding of `Data.add` (graynorm.py lines 43-61): compute the row's
coerced condition tuple; if it equals the control tuple record the new
row's index as a control row; append the index to the tuple's condition
group, creating the group at the end of the first-seen order if the tuple
is new; finally append the row. -/
def IngestState.add {β : Type} [DecidableEq β] (cond_idx : List Nat)
    (coerce : String → β) (control_vals : List β) (st : IngestState β)
    (row : List String) : IngestState β :=
  let cond_values := condTuple coerce cond_idx row
  let control_idx := if control_vals = cond_values
    then st.control_idx ++ [st.data.length] else st.control_idx
  let groups :=
    if cond_values ∈ st.groups.map Prod.fst then
      st.groups.map (fun g =>
        if g.1 = cond_values then (g.1, g.2 ++ [st.data.length]) else g)
    else
      st.groups ++ [(cond_values, [st.data.length])]
  { data := st.data ++ [row], control_idx := control_idx, groups := groups }

/-- Ingest a sequence of rows with `Data.add`, starting from the fresh
state. -/
def ingest {β : Type} [DecidableEq β] (cond_idx : List Nat) (coerce : String → β)
    (control_vals : List β) (rows : List (List String)) : IngestState β :=
  rows.foldl (IngestState.add cond_idx coerce control_vals) emptyIngest

/-- The distinct elements of a list in first-seen order (specification-side
description of the order in which `Data.add` records condition tuples). -/
def firstSeen {β : Type} [DecidableEq β] : List β → List β
  | [] => []
  | a :: as => a :: (firstSeen as).filter (fun b => decide (b ≠ a))

/-- Specification-side description of the cells `compute_nf` multiplies:
the numeric contents of the row's cells in the columns whose header is in
`genes`. -/
def selectedVals (headers genes : List String) (row : List Val) : List ℝ :=
  ((headers.zip row).filter (fun p => decide (p.1 ∈ genes))).map (fun p => p.2.toR)

/-! ## Helper lemmas -/

theorem foldl_mul_toR (l : List Val) (a : ℝ) :
    l.foldl (fun x y => x * y.toR) a = a * (l.map Val.toR).prod := by
  induction l generalizing a with
  | nil => simp
  | cons v vs ih => simp [ih (a * v.toR)]; ring

theorem compress_map_eq_filter_zip {α : Type} (f : α → Bool) :
    ∀ (headers : List α) {γ : Type} (row : List γ),
      compress row (headers.map f) =
        ((headers.zip row).filter (fun p => f p.1)).map Prod.snd := by
  intro headers
  induction headers with
  | nil => intro γ row; simp [compress]
  | cons h hs ih =>
    intro γ row
    cases row with
    | nil => simp [compress]
    | cons v vs =>
      by_cases hf : f h <;> simp [compress, hf, ih vs]

theorem sum_map_div {α : Type} (l : List α) (f : α → ℝ) (a : ℝ) :
    (l.map (fun x => f x / a)).sum = (l.map f).sum / a := by
  induction l with
  | nil => simp
  | cons x xs ih => simp [ih, add_div]

theorem sum_sq_sub_const (l : List ℝ) (m : ℝ) :
    (l.map (fun x => (x - m) ^ 2)).sum =
      (l.map (fun x => x ^ 2)).sum - 2 * m * l.sum + l.length * m ^ 2 := by
  induction l with
  | nil => simp
  | cons x xs ih => simp [ih]; ring

theorem sum_sq_sub_mean (l : List ℝ) :
    (l.map (fun x => (x - l.sum / l.length) ^ 2)).sum =
      (l.map (fun x => x ^ 2)).sum - l.sum ^ 2 / l.length := by
  rcases eq_or_ne l [] with h | h
  · simp [h]
  · have hn : (l.length : ℝ) ≠ 0 := by
      have h0 : l.length ≠ 0 := (List.length_pos.mpr h).ne'
      exact_mod_cast h0
    rw [sum_sq_sub_const]
    field_simp
    ring

theorem compress_all_false {α : Type} :
    ∀ (bs : List Bool) (row : List α), (∀ b ∈ bs, b = false) → compress row bs = [] := by
  intro bs
  induction bs with
  | nil => intro row _; cases row <;> simp [compress]
  | cons b bs ih =>
    intro row hb
    cases row with
    | nil => simp [compress]
    | cons v vs =>
      have hbf : b = false := hb b (by simp)
      simp [compress, hbf, ih vs (fun x hx => hb x (by simp [hx]))]

theorem getD_map {α β : Type} (f : α → β) (l : List α) (i : Nat) (hi : i < l.length)
    (d : α) (d' : β) : (l.map f).getD i d' = f (l.getD i d) := by
  simp [List.getD_eq_getElem?_getD, List.getElem?_eq_getElem hi]

theorem getD_mem_of_lt {α : Type} (l : List α) (i : Nat) (d : α) (h : i < l.length) :
    l.getD i d ∈ l := by
  simp [List.getD_eq_getElem?_getD, List.getElem?_eq_getElem h]

/-! ## Claim theorems -/

/-- C4: for every sequence of length at least 2, `compute_stats` returns
mean = sum/n, stddev = sqrt((sum of squares − (sum)²/n)/(n−1)) computed
from the raw sums, stderr = stddev/sqrt(n), and the stddev is
nonnegative. -/
theorem compute_stats_spec (numbers : List ℝ) (h : 2 ≤ numbers.length) :
    (compute_stats numbers).1 = numbers.sum / (numbers.length : ℝ) ∧
    (compute_stats numbers).2.1 =
      Real.sqrt (((numbers.map (fun x => x ^ 2)).sum -
        numbers.sum ^ 2 / (numbers.length : ℝ)) / ((numbers.length : ℝ) - 1)) ∧
    (compute_stats numbers).2.2 =
      (compute_stats numbers).2.1 / Real.sqrt (numbers.length : ℝ) ∧
    0 ≤ (compute_stats numbers).2.1 := by
  refine ⟨rfl, rfl, rfl, ?_⟩
  simp only [compute_stats]
  exact Real.sqrt_nonneg _

/-- Witness for C4 at the concrete input [1, 3]. -/
theorem compute_stats_spec_witness :
    2 ≤ ([(1 : ℝ), 3]).length ∧ 0 ≤ (compute_stats [(1 : ℝ), 3]).2.1 :=
  ⟨by norm_num, (compute_stats_spec [(1 : ℝ), 3] (by norm_num)).2.2.2⟩

/-- C5: the overall statistics record of a gene subset holds the mean of
the per-condition-group means, their sample standard deviation (shown both
as the raw-sums formula of `compute_stats` and as the centered
sample-variance form), the cumulative absolute deviation of the group
means from 1, and the inter-group coefficient of variation
stddev / mean. -/
theorem compute_overall_stats_spec (d : Data) (genes : List String) :
    (d.compute_overall_stats genes).avg =
      ((d.compute_condition_stats genes).map (fun stat => stat.avg)).sum /
        (((d.compute_condition_stats genes).map (fun stat => stat.avg)).length : ℝ) ∧
    (d.compute_overall_stats genes).stddev =
      (compute_stats ((d.compute_condition_stats genes).map (fun stat => stat.avg))).2.1 ∧
    (d.compute_overall_stats genes).stddev =
      Real.sqrt ((((d.compute_condition_stats genes).map (fun stat => stat.avg)).map
          (fun x => (x - (d.compute_overall_stats genes).avg) ^ 2)).sum /
        ((((d.compute_condition_stats genes).map (fun stat => stat.avg)).length : ℝ) - 1)) ∧
    (d.compute_overall_stats genes).cumm =
      (((d.compute_condition_stats genes).map (fun stat => stat.avg)).map
        (fun x => |1 - x|)).sum ∧
    (d.compute_overall_stats genes).cv_inter =
      (d.compute_overall_stats genes).stddev / (d.compute_overall_stats genes).avg := by
  refine ⟨rfl, rfl, ?_, rfl, rfl⟩
  have h := sum_sq_sub_mean ((d.compute_condition_stats genes).map (fun stat => stat.avg))
  simp only [Data.compute_overall_stats, compute_stats]
  rw [h]

/-- C2: `compute_nf` returns one value per sample row in table row order
(the length equals the number of rows and the i-th value comes from the
i-th row), each value being the product of the row's numeric cells in the
columns whose header lies in the subset, raised to the real power
1/(subset size); and `compute_inv_nf` is its elementwise reciprocal. -/
theorem compute_nf_spec (d : Data) (genes : List String) (hg : genes ≠ []) :
    (d.compute_nf genes).length = d.data.length ∧
    (∀ i, i < d.data.length →
      (d.compute_nf genes).getD i 0 =
        Real.rpow (selectedVals d.headers genes (d.data.getD i [])).prod
          (1 / (genes.length : ℝ))) ∧
    d.compute_inv_nf genes = (d.compute_nf genes).map (fun x => 1 / x) := by
  refine ⟨by simp [Data.compute_nf], ?_, rfl⟩
  intro i hi
  unfold Data.compute_nf
  rw [getD_map _ _ i hi []]
  congr 1
  rw [compress_map_eq_filter_zip, foldl_mul_toR, one_mul, List.map_map]
  rfl

/-- Witness for C2 on a one-row, one-gene table. -/
theorem compute_nf_spec_witness :
    (["g"] : List String) ≠ [] ∧
    (⟨["g"], [[Val.num 2]], [], []⟩ : Data).compute_inv_nf ["g"] =
      ((⟨["g"], [[Val.num 2]], [], []⟩ : Data).compute_nf ["g"]).map (fun x => 1 / x) :=
  ⟨by simp, (compute_nf_spec ⟨["g"], [[Val.num 2]], [], []⟩ ["g"] (by simp)).2.2⟩

/-- C10: gene names absent from the headers are silently ignored:
`compute_nf` only depends on which headers are in the subset and on the
subset's size (the exponent counts all supplied names), and when no header
at all belongs to the subset the selected product is empty, so every
returned normalization factor is 1. -/
theorem compute_nf_unknown_genes (d : Data) (genes genes' : List String)
    (hg : genes ≠ []) (hlen : genes'.length = genes.length)
    (hmem : ∀ h ∈ d.headers, (h ∈ genes ↔ h ∈ genes')) :
    d.compute_nf genes = d.compute_nf genes' ∧
    ((∀ h ∈ d.headers, h ∉ genes) → ∀ v ∈ d.compute_nf genes, v = 1) := by
  constructor
  · unfold Data.compute_nf
    rw [hlen, List.map_congr_left (fun h hh => decide_eq_decide.mpr (hmem h hh))]
  · intro hnone v hv
    unfold Data.compute_nf at hv
    simp only [List.mem_map] at hv
    obtain ⟨row, _, hrow⟩ := hv
    rw [compress_all_false _ row ?_] at hrow
    · simpa [Real.rpow_natCast] using hrow.symm
    · intro b hb
      simp only [List.mem_map] at hb
      obtain ⟨h, hh, hbh⟩ := hb
      simp [← hbh, hnone h hh]

/-- Witness for C10 with subsets {"x"} and {"y"}, neither of which occurs
among the headers of a one-row table. -/
theorem compute_nf_unknown_genes_witness :
    (["x"] : List String) ≠ [] ∧ (["y"] : List String).length = (["x"] : List String).length ∧
    (∀ h ∈ (["g"] : List String), (h ∈ (["x"] : List String) ↔ h ∈ (["y"] : List String))) ∧
    (∀ h ∈ (["g"] : List String), h ∉ (["x"] : List String)) ∧
    ∀ v ∈ (⟨["g"], [[Val.num 2]], [], []⟩ : Data).compute_nf ["x"], v = 1 :=
  ⟨by simp, by simp, by simp, by simp,
    (compute_nf_unknown_genes ⟨["g"], [[Val.num 2]], [], []⟩ ["x"] ["y"] (by simp) (by simp)
      (by simp)).2 (by simp)⟩

/-- C3: when the control group is non-empty (and, in exact arithmetic, the
control sum of inverse normalization factors is non-zero, which is what
makes the division defined), the arithmetic mean of
`compute_inv_nf_vs_control` over the control rows is exactly 1; in
particular for a single-row control group the value at that row is
exactly 1. -/
theorem compute_inv_nf_vs_control_mean_one (d : Data) (genes : List String)
    (hne : d.control_idx ≠ [])
    (hbound : ∀ i ∈ d.control_idx, i < d.data.length)
    (hsum : (d.control_idx.map (fun i => (d.compute_inv_nf genes).getD i 0)).sum ≠ 0) :
    (d.control_idx.map (fun i => (d.compute_inv_nf_vs_control genes).getD i 0)).sum /
        (d.control_idx.length : ℝ) = 1 ∧
    ∀ i, d.control_idx = [i] → (d.compute_inv_nf_vs_control genes).getD i 0 = 1 := by
  have hlen : (d.compute_inv_nf genes).length = d.data.length := by
    simp [Data.compute_inv_nf, Data.compute_nf]
  have hm : (d.control_idx.length : ℝ) ≠ 0 := by
    have h0 : d.control_idx.length ≠ 0 := (List.length_pos.mpr hne).ne'
    exact_mod_cast h0
  have hout : ∀ i ∈ d.control_idx,
      (d.compute_inv_nf_vs_control genes).getD i 0 =
        (d.compute_inv_nf genes).getD i 0 /
          ((d.control_idx.map (fun j => (d.compute_inv_nf genes).getD j 0)).sum /
            (d.control_idx.length : ℝ)) := by
    intro i hi
    simp only [Data.compute_inv_nf_vs_control]
    exact getD_map _ _ i (hlen ▸ hbound i hi) 0 0
  have main :
      (d.control_idx.map (fun i => (d.compute_inv_nf_vs_control genes).getD i 0)).sum /
        (d.control_idx.length : ℝ) = 1 := by
    rw [List.map_congr_left hout, sum_map_div, div_div, div_mul_cancel₀ _ hm]
    exact div_self hsum
  refine ⟨main, ?_⟩
  intro i hi
  rw [hi] at main
  simpa using main

/-- Witness for C3 on a one-row table whose single row is the control
group. -/
theorem compute_inv_nf_vs_control_mean_one_witness :
    ((⟨["g"], [[Val.num 2]], [0], []⟩ : Data).control_idx ≠ []) ∧
    (∀ i ∈ (⟨["g"], [[Val.num 2]], [0], []⟩ : Data).control_idx,
      i < (⟨["g"], [[Val.num 2]], [0], []⟩ : Data).data.length) ∧
    ((⟨["g"], [[Val.num 2]], [0], []⟩ : Data).control_idx.map
      (fun i => ((⟨["g"], [[Val.num 2]], [0], []⟩ : Data).compute_inv_nf ["g"]).getD i 0)).sum ≠ 0 ∧
    ∀ i, (⟨["g"], [[Val.num 2]], [0], []⟩ : Data).control_idx = [i] →
      ((⟨["g"], [[Val.num 2]], [0], []⟩ : Data).compute_inv_nf_vs_control ["g"]).getD i 0 = 1 := by
  have h1 : ((⟨["g"], [[Val.num 2]], [0], []⟩ : Data).control_idx ≠ []) := by simp
  have h2 : (∀ i ∈ (⟨["g"], [[Val.num 2]], [0], []⟩ : Data).control_idx,
      i < (⟨["g"], [[Val.num 2]], [0], []⟩ : Data).data.length) := by simp
  have h3 : ((⟨["g"], [[Val.num 2]], [0], []⟩ : Data).control_idx.map
      (fun i => ((⟨["g"], [[Val.num 2]], [0], []⟩ : Data).compute_inv_nf ["g"]).getD i 0)).sum ≠ 0 := by
    norm_num [Data.compute_inv_nf, Data.compute_nf, compress, Val.toR, Real.rpow_one]
  exact ⟨h1, h2, h3,
    (compute_inv_nf_vs_control_mean_one ⟨["g"], [[Val.num 2]], [0], []⟩ ["g"] h1 h2 h3).2⟩

/-- C9: when every measurement selected by the gene subset is strictly
positive, every normalization factor is strictly positive, every inverse
normalization factor is strictly positive, and for a non-empty in-bounds
control group the control average used as divisor in
`compute_inv_nf_vs_control` is strictly positive, so none of the divisions
of `compute_inv_nf` and `compute_inv_nf_vs_control` divides by zero. -/
theorem compute_nf_pos (d : Data) (genes : List String) (hg : genes ≠ [])
    (hpos : ∀ row ∈ d.data, ∀ v ∈ selectedVals d.headers genes row, 0 < v) :
    (∀ x ∈ d.compute_nf genes, 0 < x) ∧
    (∀ y ∈ d.compute_inv_nf genes, 0 < y) ∧
    (d.control_idx ≠ [] → (∀ i ∈ d.control_idx, i < d.data.length) →
      0 < (d.control_idx.map (fun i => (d.compute_inv_nf genes).getD i 0)).sum /
            (d.control_idx.length : ℝ)) := by
  have hnf : ∀ x ∈ d.compute_nf genes, 0 < x := by
    intro x hx
    simp only [Data.compute_nf, List.mem_map] at hx
    obtain ⟨row, hrow, hx⟩ := hx
    rw [compress_map_eq_filter_zip, foldl_mul_toR, one_mul, List.map_map] at hx
    have hprod : 0 < (selectedVals d.headers genes row).prod :=
      List.prod_pos (hpos row hrow)
    rw [← hx]
    exact Real.rpow_pos_of_pos hprod _
  have hinv : ∀ y ∈ d.compute_inv_nf genes, 0 < y := by
    intro y hy
    simp only [Data.compute_inv_nf, List.mem_map] at hy
    obtain ⟨x, hx, hy⟩ := hy
    rw [← hy]
    exact div_pos one_pos (hnf x hx)
  refine ⟨hnf, hinv, ?_⟩
  intro hne hbound
  have hlen : (d.compute_inv_nf genes).length = d.data.length := by
    simp [Data.compute_inv_nf, Data.compute_nf]
  have hS : 0 < (d.control_idx.map (fun i => (d.compute_inv_nf genes).getD i 0)).sum := by
    apply List.sum_pos
    · intro y hy
      simp only [List.mem_map] at hy
      obtain ⟨i, hi, hy⟩ := hy
      rw [← hy]
      exact hinv _ (getD_mem_of_lt _ i 0 (hlen ▸ hbound i hi))
    · simpa using hne
  have hm : (0 : ℝ) < d.control_idx.length := by
    exact_mod_cast List.length_pos.mpr hne
  exact div_pos hS hm

/-- Witness for C9 on a one-row table with a positive measurement. -/
theorem compute_nf_pos_witness :
    (["g"] : List String) ≠ [] ∧
    (∀ row ∈ (⟨["g"], [[Val.num 2]], [0], []⟩ : Data).data,
      ∀ v ∈ selectedVals ["g"] ["g"] row, 0 < v) ∧
    ∀ x ∈ (⟨["g"], [[Val.num 2]], [0], []⟩ : Data).compute_nf ["g"], 0 < x := by
  have h1 : (["g"] : List String) ≠ [] := by simp
  have h2 : ∀ row ∈ (⟨["g"], [[Val.num 2]], [0], []⟩ : Data).data,
      ∀ v ∈ selectedVals ["g"] ["g"] row, 0 < v := by
    norm_num [selectedVals, Val.toR]
  exact ⟨h1, h2, (compute_nf_pos ⟨["g"], [[Val.num 2]], [0], []⟩ ["g"] h1 h2).1⟩

/-- C6 (code behaviour at the failing input): on a table where no row
matches the control tuple, so that the control group is empty,
`compute_inv_nf_vs_control` reaches the division
`avg_control /= len(self.control_rows)` with divisor 0 and raises
`ZeroDivisionError`; it does not raise any dedicated EmptyControlGroup
error (no such handling exists in the source). -/
theorem compute_inv_nf_vs_controlE_empty_control :
    (⟨["g"], [[Val.num 2]], [], []⟩ : Data).compute_inv_nf_vs_controlE ["g"] =
      Except.error PyErr.zeroDivision := by
  norm_num [Data.compute_inv_nf_vs_controlE, Data.compute_nf, compress, Val.toR,
    Real.rpow_one, pydiv, List.mapM, List.mapM.loop, Bind.bind, Except.bind, Pure.pure, Except.pure]

/-- C7 (code behaviour at the failing input): on a statistics input with a
single value, e.g. the control-normalized values of a condition group with
exactly one sample, `compute_stats` reaches the division
`(s2 - s**2/n)/(n - 1.0)` with divisor 0 and raises `ZeroDivisionError`;
it does not raise any dedicated DegenerateSample error (no such handling
exists in the source). -/
theorem compute_statsE_singleton :
    compute_statsE [(1 : ℝ)] = Except.error PyErr.zeroDivision := by
  norm_num [compute_statsE, pydiv, Bind.bind, Except.bind]

theorem sum_map_list_range {M : Type} [AddCommMonoid M] (k : Nat) (f : Nat → M) :
    ((List.range k).map f).sum = ∑ m ∈ Finset.range k, f m := by
  induction k with
  | zero => simp
  | succ n ih =>
    rw [List.range_succ, List.map_append, List.sum_append, Finset.sum_range_succ, ih]
    simp

theorem sum_range_map_choose (k : Nat) :
    ((List.range k).map (fun m => Nat.choose k (m + 1))).sum = 2 ^ k - 1 := by
  rw [sum_map_list_range]
  have h2 := Nat.sum_range_choose k
  rw [Finset.sum_range_succ'] at h2
  simp only [Nat.choose_zero_right] at h2
  omega

theorem length_combinations {α : Type} :
    ∀ (n : Nat) (l : List α), (combinations n l).length = Nat.choose l.length n
  | 0, l => by simp [combinations]
  | n + 1, [] => by simp [combinations]
  | n + 1, a :: as => by
    simp [combinations, length_combinations n as, length_combinations (n + 1) as,
      Nat.choose_succ_succ]

theorem mem_combinations {α : Type} :
    ∀ (n : Nat) (l s : List α), s ∈ combinations n l ↔ List.Sublist s l ∧ s.length = n
  | 0, l, s => by
    simp only [combinations, List.mem_singleton]
    constructor
    · rintro rfl; exact ⟨List.nil_sublist l, rfl⟩
    · rintro ⟨_, h⟩; exact List.length_eq_zero.mp h
  | n + 1, [], s => by
    simp only [combinations, List.not_mem_nil, false_iff, not_and]
    intro hs
    rw [List.sublist_nil.mp hs]
    simp
  | n + 1, a :: as, s => by
    rw [combinations, List.mem_append, List.mem_map]
    constructor
    · rintro (⟨t, ht, rfl⟩ | h)
      · have h' := (mem_combinations n as t).mp ht
        exact ⟨List.cons_sublist_cons.mpr h'.1, by simp [h'.2]⟩
      · have h' := (mem_combinations (n + 1) as s).mp h
        exact ⟨h'.1.cons a, h'.2⟩
    · rintro ⟨hs, hlen⟩
      rcases List.sublist_cons_iff.mp hs with h | ⟨r, rfl, hr⟩
      · exact Or.inr ((mem_combinations (n + 1) as s).mpr ⟨h, hlen⟩)
      · exact Or.inl ⟨r, (mem_combinations n as r).mpr ⟨hr, by simpa using hlen⟩, rfl⟩

theorem nodup_combinations {α : Type} :
    ∀ (n : Nat) (l : List α), l.Nodup → (combinations n l).Nodup
  | 0, l, _ => by simp [combinations]
  | n + 1, [], _ => by simp [combinations]
  | n + 1, a :: as, h => by
    have ha : a ∉ as := (List.nodup_cons.mp h).1
    have has : as.Nodup := (List.nodup_cons.mp h).2
    rw [combinations, List.nodup_append]
    refine ⟨(nodup_combinations n as has).map (List.cons_injective),
      nodup_combinations (n + 1) as has, ?_⟩
    intro s hs hs'
    simp only [List.mem_map] at hs
    obtain ⟨t, _, rfl⟩ := hs
    have h' := (mem_combinations (n + 1) as (a :: t)).mp hs'
    exact ha (h'.1.subset (by simp))

theorem map_genes_all_combinations (d : Data) (cand : List String) :
    (d.all_combinations cand).map GeneComb.genes =
      (List.range cand.length).flatMap (fun m => combinations (m + 1) cand) := by
  simp [Data.all_combinations, List.map_flatMap, List.map_map, Function.comp_def]

theorem cvInterLE_trans (a b c : GeneComb) :
    cvInterLE a b → cvInterLE b c → cvInterLE a c := by
  simp only [cvInterLE, decide_eq_true_eq]
  exact le_trans

theorem cvInterLE_total (a b : GeneComb) : cvInterLE a b || cvInterLE b a := by
  rcases le_total a.overall.cv_inter b.overall.cv_inter with h | h <;>
    simp [cvInterLE, h]

/-- C1: for a candidate list of k distinct genes (k ≥ 1), `compute_all`
returns exactly 2^k − 1 records; one per non-empty subset of the
candidates (membership of the gene labels is exactly the non-empty
subsequences of the candidate list, with no duplicates); sorted
non-decreasing by the overall inter-group coefficient of variation; and
stably, so every block of enumeration-ordered records with pairwise equal
inter-group CV keeps its enumeration order (it survives as a sublist of
the output; `all_combinations` is the enumeration by increasing size and,
within a size, candidate order). -/
theorem compute_all_spec (d : Data) (cand : List String)
    (hk : 1 ≤ cand.length) (hnd : cand.Nodup) :
    (d.compute_all cand).length = 2 ^ cand.length - 1 ∧
    (d.compute_all cand).Pairwise
      (fun a b => a.overall.cv_inter ≤ b.overall.cv_inter) ∧
    (∀ s : List String,
      s ∈ (d.compute_all cand).map GeneComb.genes ↔ s ≠ [] ∧ List.Sublist s cand) ∧
    ((d.compute_all cand).map GeneComb.genes).Nodup ∧
    (∀ c : List GeneComb, List.Sublist c (d.all_combinations cand) →
      c.Pairwise (fun a b => a.overall.cv_inter = b.overall.cv_inter) →
      List.Sublist c (d.compute_all cand)) := by
  have hperm : List.Perm ((d.compute_all cand).map GeneComb.genes)
      ((d.all_combinations cand).map GeneComb.genes) :=
    (List.mergeSort_perm (d.all_combinations cand) cvInterLE).map GeneComb.genes
  refine ⟨?_, ?_, ?_, ?_, ?_⟩
  · rw [Data.compute_all, List.length_mergeSort, Data.all_combinations, List.flatMap,
      List.length_flatten, List.map_map, ← sum_range_map_choose cand.length]
    congr 1
    apply List.map_congr_left
    intro m _
    simp [length_combinations]
  · have hs := List.sorted_mergeSort cvInterLE_trans cvInterLE_total
      (d.all_combinations cand)
    exact hs.imp (fun h => by simpa [cvInterLE] using h)
  · intro s
    rw [hperm.mem_iff, map_genes_all_combinations, List.mem_flatMap]
    constructor
    · rintro ⟨m, _, hm⟩
      have h' := (mem_combinations (m + 1) cand s).mp hm
      refine ⟨?_, h'.1⟩
      intro hnil
      rw [hnil] at h'
      simp at h'
    · rintro ⟨hnil, hsub⟩
      have h1 : 1 ≤ s.length := List.length_pos.mpr hnil
      have h2 : s.length ≤ cand.length := hsub.length_le
      refine ⟨s.length - 1, ?_, (mem_combinations _ cand s).mpr ⟨hsub, by omega⟩⟩
      rw [List.mem_range]
      omega
  · rw [hperm.nodup_iff, map_genes_all_combinations]
    rw [List.nodup_flatMap]
    constructor
    · intro m _
      exact nodup_combinations (m + 1) cand hnd
    · apply (List.nodup_range cand.length).imp
      intro m m' hne s hs hs'
      have h1 := (mem_combinations (m + 1) cand s).mp hs
      have h2 := (mem_combinations (m' + 1) cand s).mp hs'
      omega
  · intro c hc hpair
    apply List.sublist_mergeSort cvInterLE_trans cvInterLE_total _ hc
    exact hpair.imp (fun h => by simp [cvInterLE, h, le_of_eq])

/-- Witness for C1 on a one-candidate list over a trivial table. -/
theorem compute_all_spec_witness :
    1 ≤ (["g"] : List String).length ∧ (["g"] : List String).Nodup ∧
    ((⟨["g"], [], [], []⟩ : Data).compute_all ["g"]).length = 2 ^ (1 : Nat) - 1 :=
  ⟨by simp, by simp,
    (compute_all_spec ⟨["g"], [], [], []⟩ ["g"] (by simp) (by simp)).1⟩

theorem mem_firstSeen {β : Type} [DecidableEq β] (a : β) :
    ∀ l : List β, a ∈ firstSeen l ↔ a ∈ l
  | [] => by simp [firstSeen]
  | b :: bs => by
    by_cases hab : a = b
    · simp [firstSeen, hab]
    · simp [firstSeen, hab, List.mem_filter, mem_firstSeen a bs]

theorem nodup_firstSeen {β : Type} [DecidableEq β] :
    ∀ l : List β, (firstSeen l).Nodup
  | [] => by simp [firstSeen]
  | b :: bs => by
    rw [firstSeen, List.nodup_cons]
    refine ⟨fun hb => ?_, (nodup_firstSeen bs).filter _⟩
    have := (List.mem_filter.mp hb).2
    simp at this

theorem firstSeen_snoc {β : Type} [DecidableEq β] (a : β) :
    ∀ l : List β, firstSeen (l ++ [a]) =
      if a ∈ l then firstSeen l else firstSeen l ++ [a]
  | [] => by simp [firstSeen]
  | b :: bs => by
    rw [List.cons_append, firstSeen, firstSeen, firstSeen_snoc a bs]
    by_cases hab : a = b
    · subst hab
      by_cases hl : a ∈ bs <;> simp [hl, List.filter_append]
    · by_cases hl : a ∈ bs <;> simp [hl, hab, List.filter_append, Ne.symm hab]

theorem getD_append_left {α : Type} (l l' : List α) (i : Nat) (d : α)
    (h : i < l.length) : (l ++ l').getD i d = l.getD i d := by
  simp [List.getD_eq_getElem?_getD, List.getElem?_append_left h]

theorem getD_concat_length {α : Type} (l : List α) (a : α) (d : α) :
    (l ++ [a]).getD l.length d = a := by
  simp [List.getD_eq_getElem?_getD, List.getElem?_concat_length]

theorem add_data_eq {β : Type} [DecidableEq β] (ci : List Nat) (coe : String → β)
    (cv : List β) (st : IngestState β) (row : List String) :
    (st.add ci coe cv row).data = st.data ++ [row] := rfl

theorem add_groups_eq {β : Type} [DecidableEq β] (ci : List Nat) (coe : String → β)
    (cv : List β) (st : IngestState β) (row : List String) :
    (st.add ci coe cv row).groups =
      if condTuple coe ci row ∈ st.groups.map Prod.fst then
        st.groups.map (fun g => if g.1 = condTuple coe ci row
          then (g.1, g.2 ++ [st.data.length]) else g)
      else st.groups ++ [(condTuple coe ci row, [st.data.length])] := rfl

theorem add_step {β : Type} [DecidableEq β] (ci : List Nat) (coe : String → β)
    (cv : List β) (st : IngestState β) (row : List String)
    (h1 : st.groups.map Prod.fst = firstSeen (st.data.map (condTuple coe ci)))
    (h2 : ∀ p ∈ st.groups, p.2 = (List.range st.data.length).filter
        (fun i => decide ((st.data.map (condTuple coe ci)).getD i [] = p.1))) :
    ((st.add ci coe cv row).groups.map Prod.fst =
      firstSeen ((st.add ci coe cv row).data.map (condTuple coe ci))) ∧
    (∀ p ∈ (st.add ci coe cv row).groups,
      p.2 = (List.range (st.add ci coe cv row).data.length).filter
        (fun i => decide
          (((st.add ci coe cv row).data.map (condTuple coe ci)).getD i [] = p.1))) := by
  have hdata := add_data_eq ci coe cv st row
  have hgroups := add_groups_eq ci coe cv st row
  have htl : (st.data.map (condTuple coe ci)).length = st.data.length := by simp
  have hmapnew : (st.add ci coe cv row).data.map (condTuple coe ci) =
      st.data.map (condTuple coe ci) ++ [condTuple coe ci row] := by
    rw [hdata, List.map_append]
    rfl
  have hlennew : (st.add ci coe cv row).data.length = st.data.length + 1 := by
    rw [hdata, List.length_append]
    rfl
  have hfil : ∀ q : List β,
      (List.range st.data.length).filter
        (fun i => decide (((st.data.map (condTuple coe ci)) ++
          [condTuple coe ci row]).getD i [] = q)) =
      (List.range st.data.length).filter
        (fun i => decide ((st.data.map (condTuple coe ci)).getD i [] = q)) := by
    intro q
    apply List.filter_congr
    intro i hi
    rw [getD_append_left]
    rw [htl]
    exact List.mem_range.mp hi
  have hgetn : ((st.data.map (condTuple coe ci)) ++
      [condTuple coe ci row]).getD st.data.length [] = condTuple coe ci row := by
    rw [← htl, getD_concat_length]
  by_cases hmem : condTuple coe ci row ∈ st.groups.map Prod.fst
  · have htmem : condTuple coe ci row ∈ st.data.map (condTuple coe ci) := by
      rw [h1] at hmem
      exact (mem_firstSeen _ _).mp hmem
    have hkeys : (st.add ci coe cv row).groups.map Prod.fst =
        st.groups.map Prod.fst := by
      rw [hgroups, if_pos hmem, List.map_map]
      apply List.map_congr_left
      intro g _
      by_cases hg : g.1 = condTuple coe ci row <;> simp [hg]
    constructor
    · rw [hkeys, h1, hmapnew, firstSeen_snoc, if_pos htmem]
    · intro p hp
      rw [hgroups, if_pos hmem, List.mem_map] at hp
      obtain ⟨g, hg, hpg⟩ := hp
      rw [hmapnew, hlennew, List.range_succ, List.filter_append, hfil]
      by_cases hgt : g.1 = condTuple coe ci row
      · rw [if_pos hgt] at hpg
        rw [← hpg]
        simp only []
        rw [← h2 g hg]
        congr 1
        simp [hgetn, hgt]
      · rw [if_neg hgt] at hpg
        rw [← hpg, ← h2 g hg]
        have hnt : ¬ condTuple coe ci row = g.1 := fun h => hgt h.symm
        simp [hgetn, hnt]
  · have hnotin : condTuple coe ci row ∉ st.data.map (condTuple coe ci) := by
      intro hmm
      exact hmem (h1 ▸ (mem_firstSeen _ _).mpr hmm)
    constructor
    · rw [hgroups, if_neg hmem, List.map_append, h1, hmapnew, firstSeen_snoc,
        if_neg hnotin]
      rfl
    · intro p hp
      rw [hgroups, if_neg hmem, List.mem_append] at hp
      rw [hmapnew, hlennew, List.range_succ, List.filter_append, hfil]
      rcases hp with hp | hp
      · have hp1 : p.1 ∈ st.groups.map Prod.fst := List.mem_map_of_mem Prod.fst hp
        have hnt : ¬ condTuple coe ci row = p.1 := by
          intro h
          apply hmem
          rw [h]
          exact hp1
        rw [← h2 p hp]
        simp [hgetn, hnt]
      · simp only [List.mem_singleton] at hp
        subst hp
        simp only []
        have hz : (List.range st.data.length).filter
            (fun i => decide ((st.data.map (condTuple coe ci)).getD i [] =
              condTuple coe ci row)) = [] := by
          rw [List.filter_eq_nil_iff]
          intro i hi
          simp only [decide_eq_true_eq]
          intro hcontra
          apply hnotin
          rw [← hcontra]
          exact getD_mem_of_lt _ i [] (htl ▸ List.mem_range.mp hi)
        rw [hz]
        simp [hgetn]

theorem ingest_aux {β : Type} [DecidableEq β] (ci : List Nat) (coe : String → β)
    (cv : List β) :
    ∀ (rows : List (List String)) (st : IngestState β),
    (st.groups.map Prod.fst = firstSeen (st.data.map (condTuple coe ci))) →
    (∀ p ∈ st.groups, p.2 = (List.range st.data.length).filter
        (fun i => decide ((st.data.map (condTuple coe ci)).getD i [] = p.1))) →
    ((rows.foldl (IngestState.add ci coe cv) st).data = st.data ++ rows ∧
     (rows.foldl (IngestState.add ci coe cv) st).groups.map Prod.fst =
       firstSeen (((rows.foldl (IngestState.add ci coe cv) st).data).map
         (condTuple coe ci)) ∧
     ∀ p ∈ (rows.foldl (IngestState.add ci coe cv) st).groups,
       p.2 = (List.range (rows.foldl (IngestState.add ci coe cv) st).data.length).filter
         (fun i => decide
           (((rows.foldl (IngestState.add ci coe cv) st).data.map
             (condTuple coe ci)).getD i [] = p.1))) := by
  intro rows
  induction rows with
  | nil => intro st hst1 hst2; exact ⟨by simp, hst1, hst2⟩
  | cons r rs ih =>
    intro st hst1 hst2
    have hstep := add_step ci coe cv st r hst1 hst2
    have hres := ih (st.add ci coe cv r) hstep.1 hstep.2
    refine ⟨?_, hres.2.1, hres.2.2⟩
    rw [List.foldl_cons, hres.1, add_data_eq]
    simp

/-- C8: after ingesting any sequence of rows with `Data.add` (for any
condition-column selection, any control tuple, and any coercion of
condition cells), the condition groups partition the row indices: the
recorded group keys are exactly the distinct coerced condition tuples in
first-seen order (hence their number is the number of distinct observed
tuples), each group holds exactly the indices of the rows with that
tuple, and every row index lies in exactly one group. -/
theorem ingest_partitions {β : Type} [DecidableEq β] (ci : List Nat)
    (coe : String → β) (cv : List β) (rows : List (List String)) :
    ((ingest ci coe cv rows).groups.map Prod.fst =
        firstSeen (rows.map (condTuple coe ci))) ∧
    ((ingest ci coe cv rows).groups.map Prod.fst).Nodup ∧
    (∀ c : List β, c ∈ (ingest ci coe cv rows).groups.map Prod.fst ↔
        c ∈ rows.map (condTuple coe ci)) ∧
    (∀ p ∈ (ingest ci coe cv rows).groups,
      p.2 = (List.range rows.length).filter
        (fun i => decide ((rows.map (condTuple coe ci)).getD i [] = p.1))) ∧
    (∀ i, i < rows.length →
      ∃! p, p ∈ (ingest ci coe cv rows).groups ∧ i ∈ p.2) := by
  have hres := ingest_aux ci coe cv rows emptyIngest (by simp [emptyIngest, firstSeen])
    (by simp [emptyIngest])
  have hdata : (ingest ci coe cv rows).data = rows := by
    rw [ingest, hres.1]
    rfl
  have hkeys : (ingest ci coe cv rows).groups.map Prod.fst =
      firstSeen (rows.map (condTuple coe ci)) := by
    rw [ingest, hres.2.1, ← ingest]
    rw [hdata]
  have hmembers : ∀ p ∈ (ingest ci coe cv rows).groups,
      p.2 = (List.range rows.length).filter
        (fun i => decide ((rows.map (condTuple coe ci)).getD i [] = p.1)) := by
    intro p hp
    have := hres.2.2 p hp
    rw [← ingest] at this
    rw [this, hdata]
  refine ⟨hkeys, ?_, ?_, hmembers, ?_⟩
  · rw [hkeys]
    exact nodup_firstSeen _
  · intro c
    rw [hkeys]
    exact mem_firstSeen c _
  · intro i hi
    have hilen : i < (rows.map (condTuple coe ci)).length := by simpa using hi
    have htmem : (rows.map (condTuple coe ci)).getD i [] ∈ rows.map (condTuple coe ci) :=
      getD_mem_of_lt _ i [] hilen
    have hkmem : (rows.map (condTuple coe ci)).getD i [] ∈
        (ingest ci coe cv rows).groups.map Prod.fst := by
      rw [hkeys]
      exact (mem_firstSeen _ _).mpr htmem
    rw [List.mem_map] at hkmem
    obtain ⟨p, hp, hp1⟩ := hkmem
    have hip : i ∈ p.2 := by
      rw [hmembers p hp]
      rw [List.mem_filter]
      exact ⟨List.mem_range.mpr hi, by simp [hp1]⟩
    refine ⟨p, ⟨hp, hip⟩, ?_⟩
    rintro q ⟨hq, hiq⟩
    have hq1 : q.1 = (rows.map (condTuple coe ci)).getD i [] := by
      have := hmembers q hq
      rw [this, List.mem_filter] at hiq
      have := hiq.2
      simp only [decide_eq_true_eq] at this
      exact this.symm
    have hnd : ((ingest ci coe cv rows).groups.map Prod.fst).Nodup := by
      rw [hkeys]
      exact nodup_firstSeen _
    exact List.inj_on_of_nodup_map hnd hq hp (by rw [hq1, hp1])

end GrayNorm
